import Mathlib

/-!
Shallow embedding of the ingestion-and-synchronization core of the
U19 pipeline (`u19_pipeline/ephys_element.py`, `BehaviorSync.make`).

Floating-point values are modelled as rationals (exact for the digital
0/1 samples, the 0.5 threshold, and the metadata literals involved).
Python's `int()` truncation toward zero is `pyInt`.  The helper
functions `readMeta`, `SampRate`, `makeMemMapRaw`/`ExtractDigital`
live in `u19_pipeline/utils/DemoReadSGLXData/readSGLX.py`, which is
repository code not included here; they are modelled from the spec
(sections 4.1-4.3) as noted on each definition.
-/

namespace EphysSync

attribute [local semireducible] Rat.add Rat.sub Rat.mul Rat.inv

/-- Decidable equality for `Except`, used to evaluate the model on
concrete sessions. -/
instance {ε α : Type} [DecidableEq ε] [DecidableEq α] : DecidableEq (Except ε α) := fun a b =>
  match a, b with
  | .error x, .error y =>
      if h : x = y then .isTrue (by rw [h]) else .isFalse (by simp [h])
  | .error _, .ok _ => .isFalse (by simp)
  | .ok _, .error _ => .isFalse (by simp)
  | .ok x, .ok y =>
      if h : x = y then .isTrue (by rw [h]) else .isFalse (by simp [h])

/-- Error taxonomy of the spec (section 7).  The source raises Python
exceptions (`IndexError` from `list(glob)[0]` on a missing file,
`ValueError` from `float()` on non-numeric text); the spec names these
situations `MissingStreamError` and `MetadataParseError`. -/
inductive Err where
  | metadataParse
  | corruptRecording
  | rangeError
  | invalidLine
  | missingStream
deriving DecidableEq, Repr

/-- A sidecar metadata file after line splitting: ordered `key=value`
pairs, both still textual. -/
abbrev Sidecar : Type := List (String × String)

/-- Lookup of a key in a sidecar property list (first match). -/
def lookupKV (sc : Sidecar) (k : String) : Option String :=
  (sc.find? (fun p => p.1 == k)).map (fun p => p.2)

/-- Numeral value of a digit string (base 10). -/
def digitsVal (cs : List Char) : Nat :=
  cs.foldl (fun a c => 10 * a + (c.toNat - 48)) 0

/-- Recognizer for a non-empty all-digit string. -/
def isDigits (cs : List Char) : Bool :=
  !cs.isEmpty && cs.all (fun c => c.isDigit)

/-- Splitting of a character list on `.` (structural version of
`String.split`). -/
def splitDot : List Char → List (List Char)
  | [] => [[]]
  | c :: rest =>
      if c = '.' then [] :: splitDot rest
      else
        match splitDot rest with
        | g :: gs => (c :: g) :: gs
        | [] => [[c]]

/-- Modelled from the spec: the float parse applied to recognized
numeric metadata values (section 4.1); accepts unsigned decimal
literals such as `1000` or `10.0`, returns `none` on non-numeric
content. -/
def parseRat (s : String) : Option ℚ :=
  match splitDot s.toList with
  | [w] =>
      if isDigits w then some (mkRat (digitsVal w) 1) else none
  | [w, fpart] =>
      if isDigits w && isDigits fpart then
        some (mkRat (digitsVal w * 10 ^ fpart.length + digitsVal fpart) (10 ^ fpart.length))
      else none
  | _ => none

/-- Modelled from the spec: `RecordingMetadata` (section 3) — the raw
key/value entries plus the two recognized numeric values, the
stream-specific acquisition-rate value and `fileTimeSecs`, parsed as
floats. -/
structure ParsedMeta where
  entries : Sidecar
  rateValue : ℚ
  fileTimeSecs : ℚ
deriving DecidableEq

/-- Acquisition-rate key of the primary (nidq) stream sidecar. -/
def niSampRateKey : String := "niSampRate"

/-- Acquisition-rate key of a probe (imec) stream sidecar. -/
def imSampRateKey : String := "imSampRate"

/-- Modelled from the spec: `readMeta` of `readSGLX.py` (not under the
included sources) per section 4.1 — fails with `MetadataParseError`
when a required key (the stream's acquisition-rate key, `fileTimeSecs`)
is missing or its value is non-numeric; other values stay textual. -/
def readMeta (rateKey : String) (sc : Sidecar) : Except Err ParsedMeta :=
  match lookupKV sc rateKey with
  | none => .error .metadataParse
  | some rv =>
    match lookupKV sc "fileTimeSecs" with
    | none => .error .metadataParse
    | some fv =>
      match parseRat rv with
      | none => .error .metadataParse
      | some r =>
        match parseRat fv with
        | none => .error .metadataParse
        | some f => .ok ⟨sc, r, f⟩

/-- Modelled from the spec: `SampRate` of `readSGLX.py` — the sampling
rate derived from the stream's recognized acquisition-rate key
(section 4.1, pluggable per stream type via `rateKey` in `readMeta`). -/
def SampRate (m : ParsedMeta) : ℚ := m.rateValue

/-- Python `int()` applied to a float: truncation toward zero. -/
def pyInt (q : ℚ) : Int :=
  if q < 0 then -(⌊-q⌋) else ⌊q⌋

/-- The source fixes `t_start = 0` (line 92); it is not caller-supplied. -/
def tStart : ℚ := 0

/-- First extracted sample, `int(nidq_sampling_rate * t_start)` (line 98). -/
def firstSampleIndex (rate : ℚ) : Int := pyInt (rate * tStart)

/-- Last extracted sample, `int(nidq_sampling_rate * t_end) - 1` (line 99). -/
def lastSampleIndex (rate tEnd : ℚ) : Int := pyInt (rate * tEnd) - 1

/-- The digital word requested, `dw = 0` (line 94). -/
def dw : Nat := 0

/-- The digital lines requested, `d_line_list = [0..7]` (line 95). -/
def dLineList : List Nat := [0, 1, 2, 3, 4, 5, 6, 7]

/-- A raw binary file together with its paired sidecar: the sidecar
entries, the total sample count, and the digital word channels as a
function of (word index, sample index).  Probe `.ap.bin` contents are
carried too, although `make` never reads them. -/
structure RawFile where
  meta : Sidecar
  nSamples : Nat
  word : Nat → Nat → Nat

/-- The inclusive sample range `[first, last]` as natural indices;
empty when `last < first` (the degenerate case). -/
def sampleRange (first last : Int) : List Nat :=
  (List.range ((last + 1 - first).toNat)).map (fun (k : Nat) => (first + (k : Int)).toNat)

/-- Modelled from the spec: `ExtractDigital` of `readSGLX.py`
(section 4.3) — per requested line `l`, the bit `(w >>> l) &&& 1` of
the requested digital word over the inclusive sample range; fails with
`InvalidLineError` for a line outside the 16-bit word and with
`RangeError` when the requested range exceeds the recording's sample
count. -/
def ExtractDigital (raw : RawFile) (firstSamp lastSamp : Int)
    (dwReq : Nat) (dLines : List Nat) : Except Err (List (List Nat)) :=
  if dLines.any (fun l => 16 ≤ l) then .error .invalidLine
  else if firstSamp < 0 ∨ (raw.nSamples : Int) ≤ lastSamp then .error .rangeError
  else .ok (dLines.map (fun l =>
    (sampleRange firstSamp lastSamp).map (fun i => (raw.word dwReq i >>> l) &&& 1)))

/-- Differences of consecutive samples, `np.diff`: entry `i` is
`trace[i+1] - trace[i]`. -/
def npDiff : List ℚ → List ℚ
  | a :: b :: rest => (b - a) :: npDiff (b :: rest)
  | _ => []

/-- Indices at which a predicate holds, `np.where(cond)[0]`. -/
def npWhere (p : ℚ → Bool) (xs : List ℚ) : List Nat :=
  (List.range xs.length).filter (fun i => p (xs.getD i 0))

/-- Edge detection of line 108 of the source:
`np.where(np.abs(np.diff(np.double(trace))) > 0.5)[0]`. -/
def edgeIndices (trace : List ℚ) : List Nat :=
  npWhere (fun d => decide ((1 : ℚ) / 2 < |d|)) (npDiff trace)

/-- Stated from the spec's words, for comparison with `edgeIndices`
(claim C2): the ordered sequence of every index `i` with
`abs(trace[i] - trace[i-1]) > 0.5`, zero-based in the trace. -/
def specEdgeIndices (trace : List ℚ) : List Nat :=
  (List.range trace.length).filter
    (fun i => decide (0 < i) && decide ((1 : ℚ) / 2 < |trace.getD i 0 - trace.getD (i - 1) 0|))

/-- A session directory as `make` sees it: the glob results for
`*nidq.bin*`, the fetched probe insertion numbers in order, and the
glob results for each probe's `*imec{n}/*.ap.bin`. -/
structure Session where
  nidqFiles : List RawFile
  probes : List Nat
  probeFiles : Nat → List RawFile

/-- The `list(glob(...))[0]` idiom of lines 88 and 116-117: the first
match, or an error when no file matches (Python raises `IndexError`;
the spec names this situation `MissingStreamError`). -/
def headE : List RawFile → Except Err RawFile
  | [] => .error .missingStream
  | f :: _ => .ok f

/-- The synchronization artifact produced per session: the primary
sampling rate, the iteration-index sequence, and the per-probe
sampling-rate table (lines 110-121). -/
structure SyncArtifact where
  nidqSamplingRate : ℚ
  iterationIndexNidq : List Nat
  imecSamplingRates : List (Nat × ℚ)
deriving DecidableEq

/-- The primary-stream pass of `make` (lines 87-108): locate the nidq
file, read its metadata, extract digital lines 0-7 of word 0 over
`[int(rate*0), int(rate*fileTimeSecs) - 1]`, and edge-detect line 1. -/
def primaryStage (files : List RawFile) : Except Err (ℚ × List Nat) :=
  match headE files with
  | .error e => .error e
  | .ok nidqFile =>
    match readMeta niSampRateKey nidqFile.meta with
    | .error e => .error e
    | .ok meta =>
      match ExtractDigital nidqFile (firstSampleIndex (SampRate meta))
          (lastSampleIndex (SampRate meta) meta.fileTimeSecs) dw dLineList with
      | .error e => .error e
      | .ok digitalArray =>
          .ok (SampRate meta,
               edgeIndices ((digitalArray.getD 1 []).map (fun (b : Nat) => (b : ℚ))))

/-- The per-probe loop of `make` (lines 114-121): for each insertion
number in order, take the first file matching its pattern, read its
metadata, and record the `imSampRate` value; any failure propagates
(there is no exception handling in the loop). -/
def probeStage (pf : Nat → List RawFile) : List Nat → Except Err (List (Nat × ℚ))
  | [] => .ok []
  | n :: ns =>
    match headE (pf n) with
    | .error e => .error e
    | .ok f =>
      match readMeta imSampRateKey f.meta with
      | .error e => .error e
      | .ok m =>
        match probeStage pf ns with
        | .error e => .error e
        | .ok rest => .ok ((n, m.rateValue) :: rest)

/-- The whole of `BehaviorSync.make` as a function from the session's
directory contents to the produced artifact: the primary pass, then
the probe loop; an exception anywhere propagates and (the enclosing
transaction rolling back) nothing is returned. -/
def makeModel (s : Session) : Except Err SyncArtifact :=
  match primaryStage s.nidqFiles with
  | .error e => .error e
  | .ok pr =>
    match probeStage s.probeFiles s.probes with
    | .error e => .error e
    | .ok rates => .ok ⟨pr.1, pr.2, rates⟩

/-- A synthetic square wave of half-period `h` (period `P = 2*h`) over
`N` samples, starting high at sample 0, as a digital 0/1 trace. -/
def squareTrace (h N : Nat) : List ℚ :=
  (List.range N).map (fun i => if (i / h) % 2 = 0 then 1 else 0)

/-! ### Concrete sessions used as witnesses and counterexamples -/

/-- A two-sample constant-zero primary recording. -/
def constFile : RawFile :=
  ⟨[("niSampRate", "2"), ("fileTimeSecs", "1")], 2, fun _ _ => 0⟩

/-- A session with the constant primary recording and no probes. -/
def constSession : Session := ⟨[constFile], [], fun _ => []⟩

/-- A probe recording whose sidecar declares `imSampRate = 30000`. -/
def probeFileA : RawFile :=
  ⟨[("imSampRate", "30000"), ("fileTimeSecs", "1")], 4, fun _ _ => 3⟩

/-- Two declared probes; probe 0 has its file, probe 1's file is
missing (its glob list is empty). -/
def missingProbeSession : Session :=
  ⟨[constFile], [0, 1], fun n => if n = 0 then [probeFileA] else []⟩

/-- One declared probe whose file is present. -/
def probeSession : Session := ⟨[constFile], [0], fun _ => [probeFileA]⟩

/-- The same probe session with different probe binary contents (same
sidecar metadata). -/
def probeSessionAltBin : Session :=
  ⟨[constFile], [0], fun _ => [⟨probeFileA.meta, 77, fun _ _ => 12345⟩]⟩

/-- The digital word of the C4 scenario: line 1 carries a square wave
of half period 1000 (5 cycles over 10000 samples), lines 0 and 2-7
are constant 0. -/
def c4word (i : Nat) : Nat := 2 * (if (i / 1000) % 2 = 0 then 1 else 0)

/-- The C4 scenario's primary recording: `niSampRate = 1000`,
`fileTimeSecs = 10.0`, 10000 samples. -/
def squareFile : RawFile :=
  ⟨[("niSampRate", "1000"), ("fileTimeSecs", "10.0")], 10000, fun _ i => c4word i⟩

/-- The C4 scenario session: the square-wave primary, no probes. -/
def squareSession : Session := ⟨[squareFile], [], fun _ => []⟩

/-- A session whose metadata declares `fileTimeSecs = 0`. -/
def zeroDurFile : RawFile :=
  ⟨[("niSampRate", "100"), ("fileTimeSecs", "0")], 0, fun _ _ => 0⟩

/-- The zero-duration session, no probes. -/
def zeroDurSession : Session := ⟨[zeroDurFile], [], fun _ => []⟩

/-- The parsed metadata of the C4 scenario. -/
def squareMeta : ParsedMeta := ⟨squareFile.meta, 1000, 10⟩


/-! ### Basic lemmas about the edge detector -/

theorem npDiff_length : ∀ t : List ℚ, (npDiff t).length = t.length - 1
  | [] => rfl
  | [_] => rfl
  | a :: b :: rest => by
      have ih := npDiff_length (b :: rest)
      simp [npDiff] at ih ⊢
      omega

theorem npDiff_getD : ∀ (t : List ℚ) (i : Nat), i < t.length - 1 →
    (npDiff t).getD i 0 = t.getD (i + 1) 0 - t.getD i 0
  | [], i, h => by simp at h
  | [_], i, h => by simp at h
  | a :: b :: rest, 0, _ => by simp [npDiff]
  | a :: b :: rest, i + 1, h => by
      have ih := npDiff_getD (b :: rest) i (by simpa using Nat.lt_of_succ_lt_succ (by simpa using h))
      simpa [npDiff] using ih

theorem npWhere_eq_filter (p : ℚ → Bool) (xs : List ℚ) :
    npWhere p xs = (List.range xs.length).filter (fun i => p (xs.getD i 0)) := rfl

/-- The edge detector, written as a filter over diff positions. -/
theorem edgeIndices_eq_filter (t : List ℚ) :
    edgeIndices t = (List.range (t.length - 1)).filter
      (fun i => decide ((1 : ℚ) / 2 < |t.getD (i + 1) 0 - t.getD i 0|)) := by
  rw [edgeIndices, npWhere_eq_filter, npDiff_length]
  refine List.filter_congr ?_
  intro i hi
  rw [List.mem_range] at hi
  rw [npDiff_getD t i hi]

/-- Edge indices are strictly increasing. -/
theorem edgeIndices_sorted (t : List ℚ) : List.Sorted (· < ·) (edgeIndices t) := by
  rw [edgeIndices_eq_filter]
  exact (List.pairwise_lt_range _).sublist (List.filter_sublist _)

/-- The spec-worded edge sequence is the detector's sequence shifted
up by one: the detector reports the diff position `i` (the sample
before the new level), the spec's words describe the position `i + 1`
(the sample at the new level). -/
theorem specEdgeIndices_eq_map_succ (t : List ℚ) :
    specEdgeIndices t = (edgeIndices t).map (fun i => i + 1) := by
  cases t with
  | nil => rfl
  | cons a t' =>
      rw [edgeIndices_eq_filter, specEdgeIndices]
      show (List.range (t'.length + 1)).filter _ =
        ((List.range (t'.length + 1 - 1)).filter _).map _
      rw [List.range_succ_eq_map, List.filter_cons,
        decide_eq_false (by omega : ¬ (0 : Nat) < 0), Bool.false_and]
      simp only [Bool.false_eq_true, if_false, List.filter_map, Nat.add_sub_cancel]
      have hf : List.filter
          ((fun i => decide (0 < i) && decide ((1 : ℚ) / 2 <
            |(a :: t').getD i 0 - (a :: t').getD (i - 1) 0|)) ∘ Nat.succ)
          (List.range t'.length) =
          List.filter (fun i => decide ((1 : ℚ) / 2 <
            |(a :: t').getD (i + 1) 0 - (a :: t').getD i 0|))
          (List.range t'.length) := by
        refine List.filter_congr ?_
        intro i _
        simp only [Function.comp]
        rw [decide_eq_true (Nat.succ_pos i), Bool.true_and]
        rfl
      rw [hf]

/-! ### The square-wave trace -/

theorem squareTrace_length (h N : Nat) : (squareTrace h N).length = N := by
  simp [squareTrace]

theorem squareTrace_getD (h N i : Nat) (hi : i < N) :
    (squareTrace h N).getD i 0 = if (i / h) % 2 = 0 then 1 else 0 := by
  rw [squareTrace, List.getD_eq_getElem _ _ (by simpa), List.getElem_map, List.getElem_range]

/-- On the square wave, an edge sits exactly before each multiple of
the half period. -/
theorem edgeIndices_squareTrace (h N : Nat) (_hh : 0 < h) :
    edgeIndices (squareTrace h N) =
      (List.range (N - 1)).filter (fun i => decide ((i + 1) % h = 0)) := by
  rw [edgeIndices_eq_filter, squareTrace_length]
  refine List.filter_congr ?_
  intro i hi
  rw [List.mem_range] at hi
  rw [squareTrace_getD h N i (by omega), squareTrace_getD h N (i + 1) (by omega)]
  by_cases hd : (i + 1) % h = 0
  · have hdvd : h ∣ i + 1 := Nat.dvd_iff_mod_eq_zero.mpr hd
    have hq : (i + 1) / h = i / h + 1 := by
      rw [Nat.succ_div, if_pos hdvd]
    rw [hq, decide_eq_true hd]
    generalize i / h = q
    rcases Nat.mod_two_eq_zero_or_one q with hp | hp
    · rw [if_pos hp, if_neg (by omega : ¬ (q + 1) % 2 = 0)]
      simp only [decide_eq_true_eq]
      norm_num
    · rw [if_neg (by omega : ¬ q % 2 = 0), if_pos (by omega : (q + 1) % 2 = 0)]
      simp only [decide_eq_true_eq]
      norm_num
  · have hndvd : ¬ h ∣ i + 1 := fun hc => hd (Nat.dvd_iff_mod_eq_zero.mp hc)
    have hq : (i + 1) / h = i / h := by
      rw [Nat.succ_div, if_neg hndvd]
      omega
    rw [hq, sub_self, abs_zero]
    rw [decide_eq_false hd, decide_eq_false (by norm_num : ¬ ((1 : ℚ) / 2 < 0))]

/-- Counting: the filtered multiples of `h` below `n`, in closed map
form. -/
theorem filter_mod_eq_map (h : Nat) (hh : 0 < h) : ∀ n : Nat,
    (List.range n).filter (fun i => decide ((i + 1) % h = 0)) =
      (List.range (n / h)).map (fun k => h * k + (h - 1))
  | 0 => by simp
  | n + 1 => by
      rw [List.range_succ, List.filter_append, filter_mod_eq_map h hh n]
      by_cases hd : (n + 1) % h = 0
      · obtain ⟨m, hm⟩ : h ∣ n + 1 := Nat.dvd_iff_mod_eq_zero.mpr hd
        have hm1 : 1 ≤ m := by
          rcases Nat.eq_zero_or_pos m with h0 | h1
          · rw [h0, Nat.mul_zero] at hm
            omega
          · exact h1
        have e : h * (m - 1) + h = h * m := by
          rw [← Nat.mul_succ]
          congr 1
          omega
        have hq1 : (n + 1) / h = m := by
          rw [hm, Nat.mul_div_cancel_left m hh]
        have hn : n = h - 1 + h * (m - 1) := by
          generalize h * (m - 1) = x at e ⊢
          generalize h * m = y at e hm
          omega
        have hq0 : n / h = m - 1 := by
          rw [hn, Nat.add_mul_div_left _ _ hh, Nat.div_eq_of_lt (by omega), Nat.zero_add]
        rw [hq0, hq1, List.filter_cons, decide_eq_true hd]
        simp only [if_true]
        have hms : m = (m - 1) + 1 := by omega
        rw [hms, List.range_succ, List.map_append]
        congr 1
        simp only [List.map_cons, List.map_nil]
        congr 1
        generalize h * (m - 1) = x at hn
        omega
      · have hndvd : ¬ h ∣ n + 1 := fun hc => hd (Nat.dvd_iff_mod_eq_zero.mp hc)
        have hq : (n + 1) / h = n / h := by
          rw [Nat.succ_div, if_neg hndvd]
          omega
        rw [hq, List.filter_cons, decide_eq_false hd]
        simp

/-- Edge count on the square wave: `floor((N-1) / (P/2))`. -/
theorem edgeIndices_squareTrace_length (h N : Nat) (hh : 0 < h) :
    (edgeIndices (squareTrace h N)).length = (N - 1) / h := by
  rw [edgeIndices_squareTrace h N hh, filter_mod_eq_map h hh, List.length_map,
    List.length_range]

/-- Consecutive square-wave edges are exactly a half period apart. -/
theorem edgeIndices_squareTrace_chain (h N : Nat) (hh : 0 < h) :
    List.Chain' (fun a b => b = a + h) (edgeIndices (squareTrace h N)) := by
  rw [edgeIndices_squareTrace h N hh, filter_mod_eq_map h hh, List.chain'_map]
  cases hq : (N - 1) / h with
  | zero => simp
  | succ m =>
      rw [List.chain'_range_succ]
      intro k _
      rw [Nat.mul_succ]
      generalize h * k = x
      omega

/-- Division bound: the count `floor((N-1)/h)` is within one of
`2 * floor(N / (2h))`. -/
theorem square_count_bounds (h N : Nat) (hh : 0 < h) :
    2 * (N / (2 * h)) ≤ (N - 1) / h + 1 ∧ (N - 1) / h ≤ 2 * (N / (2 * h)) + 1 := by
  rcases Nat.eq_zero_or_pos N with hN | hN
  · subst hN
    simp
  · have hkey := Nat.div_add_mod N (2 * h)
    have hr : N % (2 * h) < 2 * h := Nat.mod_lt _ (by omega)
    rcases Nat.eq_zero_or_pos (N % (2 * h)) with h0 | h1
    · have hq1 : 1 ≤ N / (2 * h) := by
        rcases Nat.eq_zero_or_pos (N / (2 * h)) with hz | hp
        · rw [hz] at hkey
          omega
        · exact hp
      have e : h * (2 * (N / (2 * h)) - 1) + h = h * (2 * (N / (2 * h))) := by
        rw [← Nat.mul_succ]
        congr 1
        omega
      have e2 : h * (2 * (N / (2 * h))) = 2 * h * (N / (2 * h)) := by ring
      have hn : N - 1 = h - 1 + h * (2 * (N / (2 * h)) - 1) := by
        generalize h * (2 * (N / (2 * h)) - 1) = x at e
        generalize h * (2 * (N / (2 * h))) = y at e e2
        omega
      have hv : (N - 1) / h = 2 * (N / (2 * h)) - 1 := by
        rw [hn, Nat.add_mul_div_left _ _ hh, Nat.div_eq_of_lt (by omega), Nat.zero_add]
      rw [hv]
      omega
    · have e2 : h * (2 * (N / (2 * h))) = 2 * h * (N / (2 * h)) := by ring
      have hn : N - 1 = N % (2 * h) - 1 + h * (2 * (N / (2 * h))) := by
        generalize h * (2 * (N / (2 * h))) = y at e2
        omega
      have hb : (N % (2 * h) - 1) / h ≤ 1 := by
        have : (N % (2 * h) - 1) / h < 2 := by
          rw [Nat.div_lt_iff_lt_mul hh]
          omega
        omega
      have hv : (N - 1) / h = (N % (2 * h) - 1) / h + 2 * (N / (2 * h)) := by
        rw [hn, Nat.add_mul_div_left _ _ hh]
      rw [hv]
      generalize (N % (2 * h) - 1) / h = B at hb ⊢
      generalize N / (2 * h) = q
      omega

/-! ### Inversion and congruence lemmas for the pipeline stages -/

theorem headE_ok {l : List RawFile} {f : RawFile} (h : headE l = .ok f) :
    ∃ fs, l = f :: fs := by
  cases l with
  | nil => exact absurd h (by simp [headE])
  | cons a as =>
      refine ⟨as, ?_⟩
      simp only [headE, Except.ok.injEq] at h
      rw [h]

theorem probeStage_ok_mem (pf : Nat → List RawFile) :
    ∀ (l : List Nat) (ys : List (Nat × ℚ)), probeStage pf l = .ok ys →
    ∀ n q, (n, q) ∈ ys →
    ∃ f fs m, pf n = f :: fs ∧ readMeta imSampRateKey f.meta = .ok m ∧ q = m.rateValue := by
  intro l
  induction l with
  | nil =>
      intro ys h n q hm
      simp only [probeStage, Except.ok.injEq] at h
      rw [← h] at hm
      simp at hm
  | cons n' ns ih =>
      intro ys h n q hm
      simp only [probeStage] at h
      split at h
      · simp at h
      · rename_i f hE
        split at h
        · simp at h
        · rename_i m hM
          split at h
          · simp at h
          · rename_i rest hR
            simp only [Except.ok.injEq] at h
            rw [← h] at hm
            rcases List.mem_cons.mp hm with hhd | htl
            · obtain ⟨fs, hfs⟩ := headE_ok hE
              cases hhd
              exact ⟨f, fs, m, hfs, hM, rfl⟩
            · exact ih rest hR n q htl

theorem probeStage_not_ok_of_missing (pf : Nat → List RawFile) :
    ∀ (l : List Nat) (n : Nat), n ∈ l → pf n = [] →
    ∀ ys, probeStage pf l ≠ .ok ys := by
  intro l
  induction l with
  | nil => intro n hn; simp at hn
  | cons n' ns ih =>
      intro n hn hpf ys h
      simp only [probeStage] at h
      rcases List.mem_cons.mp hn with rfl | htl
      · rw [hpf] at h
        simp only [headE] at h
        simp at h
      · split at h
        · simp at h
        · split at h
          · simp at h
          · split at h
            · simp at h
            · rename_i rest hR
              exact ih n htl hpf rest hR

theorem probeStage_congr {pf1 pf2 : Nat → List RawFile}
    (hm : ∀ n, (pf1 n).map RawFile.meta = (pf2 n).map RawFile.meta) :
    ∀ l : List Nat, probeStage pf1 l = probeStage pf2 l := by
  intro l
  induction l with
  | nil => rfl
  | cons n' ns ih =>
      have hn := hm n'
      cases h1 : pf1 n' with
      | nil =>
          cases h2 : pf2 n' with
          | nil => simp only [probeStage, h1, h2, headE, ih]
          | cons b bs => rw [h1, h2] at hn; simp at hn
      | cons a as =>
          cases h2 : pf2 n' with
          | nil => rw [h1, h2] at hn; simp at hn
          | cons b bs =>
              rw [h1, h2] at hn
              simp only [List.map_cons, List.cons.injEq] at hn
              obtain ⟨hab, _⟩ := hn
              simp only [probeStage, h1, h2, headE, hab, ih]

theorem makeModel_ok {s : Session} {art : SyncArtifact} (h : makeModel s = .ok art) :
    ∃ pr rates, primaryStage s.nidqFiles = .ok pr ∧
      probeStage s.probeFiles s.probes = .ok rates ∧
      art = ⟨pr.1, pr.2, rates⟩ := by
  simp only [makeModel] at h
  split at h
  · simp at h
  · rename_i pr hP
    split at h
    · simp at h
    · rename_i rates hR
      simp only [Except.ok.injEq] at h
      exact ⟨pr, rates, hP, hR, h.symm⟩

theorem primaryStage_ok_iter {files : List RawFile} {pr : ℚ × List Nat}
    (h : primaryStage files = .ok pr) : ∃ t, pr.2 = edgeIndices t := by
  simp only [primaryStage] at h
  split at h
  · simp at h
  · split at h
    · simp at h
    · split at h
      · simp at h
      · rename_i da hX
        simp only [Except.ok.injEq] at h
        rw [← h]
        exact ⟨(da.getD 1 []).map (fun (b : Nat) => (b : ℚ)), rfl⟩

/-- Row selection: among the eight extracted lines, index 1 is line 1. -/
theorem map_dLineList_getD_one (g : Nat → List Nat) :
    ((dLineList.map g).getD 1 []) = g 1 := by
  simp [dLineList]

/-! ### Further evaluation lemmas -/

/-- A trace without level transitions produces no edges. -/
theorem edgeIndices_eq_nil (t : List ℚ) (hno : ∀ d ∈ npDiff t, |d| ≤ 1 / 2) :
    edgeIndices t = [] := by
  rw [edgeIndices, npWhere]
  refine List.filter_eq_nil_iff.mpr ?_
  intro i hi
  rw [List.mem_range] at hi
  have hmem : (npDiff t).getD i 0 ∈ npDiff t := by
    rw [List.getD_eq_getElem _ _ hi]
    exact List.getElem_mem hi
  simp only [decide_eq_true_eq]
  exact not_lt.mpr (hno _ hmem)

/-- Extraction over the degenerate range `[0, -1]` yields an empty
trace per requested line, not an error. -/
theorem ExtractDigital_degenerate (raw : RawFile) :
    ExtractDigital raw 0 (-1) dw dLineList = .ok (dLineList.map (fun _ => [])) := by
  rw [ExtractDigital]
  rw [if_neg (by decide : ¬ dLineList.any (fun l => 16 ≤ l) = true)]
  rw [if_neg ?_]
  · have hsr : sampleRange 0 (-1) = [] := by
      rw [sampleRange]
      decide
    rw [hsr]
    simp
  · intro hc
    rcases hc with hc | hc
    · omega
    · omega

theorem sampleRange_zero_range (last : Int) (n : Nat) (hl : (last + 1 - 0).toNat = n) :
    sampleRange 0 last = List.range n := by
  rw [sampleRange, hl]
  have h2 : ∀ k ∈ List.range n, ((0 : Int) + (k : Int)).toNat = id k := by
    intro k _
    simp
  rw [List.map_congr_left h2, List.map_id]

/-- Shape of a successful primary pass over the first matching file. -/
theorem primaryStage_cons_ok (f : RawFile) (rest : List RawFile) (m : ParsedMeta)
    (h2 : readMeta niSampRateKey f.meta = .ok m)
    (hok : ¬ (firstSampleIndex (SampRate m) < 0 ∨
      ((f.nSamples : Int) ≤ lastSampleIndex (SampRate m) m.fileTimeSecs))) :
    primaryStage (f :: rest) = .ok (SampRate m,
      edgeIndices (((sampleRange (firstSampleIndex (SampRate m))
        (lastSampleIndex (SampRate m) m.fileTimeSecs)).map
          (fun i => (f.word dw i >>> 1) &&& 1)).map (fun (b : Nat) => (b : ℚ)))) := by
  have hx : ExtractDigital f (firstSampleIndex (SampRate m))
      (lastSampleIndex (SampRate m) m.fileTimeSecs) dw dLineList =
      .ok (dLineList.map (fun l => (sampleRange (firstSampleIndex (SampRate m))
        (lastSampleIndex (SampRate m) m.fileTimeSecs)).map
          (fun i => (f.word dw i >>> l) &&& 1))) := by
    rw [ExtractDigital, if_neg (by decide : ¬ dLineList.any (fun l => 16 ≤ l) = true),
      if_neg hok]
  simp only [primaryStage, headE, h2, hx, map_dLineList_getD_one]

/-- Shape of a primary pass failing the bounds check. -/
theorem primaryStage_cons_rangeErr (f : RawFile) (rest : List RawFile) (m : ParsedMeta)
    (h2 : readMeta niSampRateKey f.meta = .ok m)
    (hbad : firstSampleIndex (SampRate m) < 0 ∨
      ((f.nSamples : Int) ≤ lastSampleIndex (SampRate m) m.fileTimeSecs)) :
    primaryStage (f :: rest) = .error .rangeError := by
  have hx : ExtractDigital f (firstSampleIndex (SampRate m))
      (lastSampleIndex (SampRate m) m.fileTimeSecs) dw dLineList = .error .rangeError := by
    rw [ExtractDigital, if_neg (by decide : ¬ dLineList.any (fun l => 16 ≤ l) = true),
      if_pos hbad]
  simp only [primaryStage, headE, h2, hx]

/-- The primary stage ignores every digital line except line 1: only
the extracted bit `(w >>> 1) &&& 1` of each sample feeds the result. -/
theorem primaryStage_word_congr (f : RawFile) (rest : List RawFile)
    (w' : Nat → Nat → Nat) (m : ParsedMeta)
    (h2 : readMeta niSampRateKey f.meta = .ok m)
    (hagree : ∀ i ∈ sampleRange (firstSampleIndex (SampRate m))
        (lastSampleIndex (SampRate m) m.fileTimeSecs),
        (w' dw i >>> 1) &&& 1 = (f.word dw i >>> 1) &&& 1) :
    primaryStage ({ f with word := w' } :: rest) = primaryStage (f :: rest) := by
  by_cases hc : firstSampleIndex (SampRate m) < 0 ∨
      ((f.nSamples : Int) ≤ lastSampleIndex (SampRate m) m.fileTimeSecs)
  · rw [primaryStage_cons_rangeErr f rest m h2 hc,
      primaryStage_cons_rangeErr { f with word := w' } rest m h2 hc]
  · rw [primaryStage_cons_ok f rest m h2 hc,
      primaryStage_cons_ok { f with word := w' } rest m h2 hc]
    simp only [List.map_congr_left hagree]

theorem primaryStage_squareSession :
    primaryStage squareSession.nidqFiles =
      .ok (1000, edgeIndices (squareTrace 1000 10000)) := by
  have hm : readMeta niSampRateKey squareFile.meta = .ok squareMeta := by decide
  have hok : ¬ (firstSampleIndex (SampRate squareMeta) < 0 ∨
      ((squareFile.nSamples : Int) ≤
        lastSampleIndex (SampRate squareMeta) squareMeta.fileTimeSecs)) := by decide
  have h1 := primaryStage_cons_ok squareFile [] squareMeta hm hok
  have hsr : sampleRange (firstSampleIndex (SampRate squareMeta))
      (lastSampleIndex (SampRate squareMeta) squareMeta.fileTimeSecs) =
      List.range 10000 := by
    rw [(by decide : firstSampleIndex (SampRate squareMeta) = 0),
      (by decide : lastSampleIndex (SampRate squareMeta) squareMeta.fileTimeSecs = 9999)]
    exact sampleRange_zero_range 9999 10000 (by decide)
  rw [hsr] at h1
  have htr : ((List.range 10000).map (fun i => (squareFile.word dw i >>> 1) &&& 1)).map
      (fun (b : Nat) => (b : ℚ)) = squareTrace 1000 10000 := by
    rw [List.map_map, squareTrace]
    refine List.map_congr_left ?_
    intro i _
    simp only [Function.comp, squareFile, c4word]
    by_cases hp : (i / 1000) % 2 = 0
    · rw [if_pos hp, (by decide : ((2 * 1) >>> 1) &&& 1 = 1), if_pos hp]
      norm_num
    · rw [if_neg hp, (by decide : ((2 * 0) >>> 1) &&& 1 = 0), if_neg hp]
      norm_num
  rw [htr] at h1
  show primaryStage [squareFile] = Except.ok (1000, edgeIndices (squareTrace 1000 10000))
  exact h1

theorem makeModel_squareSession :
    makeModel squareSession = .ok ⟨1000, edgeIndices (squareTrace 1000 10000), []⟩ := by
  simp only [makeModel, primaryStage_squareSession]
  rfl

theorem squareSession_iter_length :
    (edgeIndices (squareTrace 1000 10000)).length = 9 := by
  rw [edgeIndices_squareTrace_length 1000 10000 (by norm_num)]


/-! ### Claims -/

/-- C1 counterexample: a session declaring probes 0 and 1 where probe 1's
binary file is missing.  Contrary to the claim, `make` does not return
the primary result with a one-entry probe table: the `list(glob)[0]`
lookup raises, the error propagates, and nothing is returned. -/
theorem claim_C1_counterexample :
    makeModel missingProbeSession = .error .missingStream := by decide

/-- C1 amended: a failure to locate a single probe's binary file aborts
session processing — whenever some declared probe's glob result is
empty, `make` never returns an artifact (the primary result included). -/
theorem claim_C1 (s : Session) (n : Nat) (hn : n ∈ s.probes)
    (hmiss : s.probeFiles n = []) (art : SyncArtifact) :
    makeModel s ≠ .ok art := by
  intro h
  obtain ⟨pr, rates, _, hR, _⟩ := makeModel_ok h
  exact probeStage_not_ok_of_missing s.probeFiles s.probes n hn hmiss rates hR

/-- C1 witness: the amended theorem applied to the concrete
two-probe session with probe 1's file missing. -/
theorem claim_C1_witness :
    makeModel missingProbeSession ≠ .ok ⟨2, [], [(0, 30000)]⟩ :=
  claim_C1 missingProbeSession 1 (by decide) rfl ⟨2, [], [(0, 30000)]⟩

/-- C2 counterexample: on the two-sample trace `[0, 1]` the detector
emits `[0]` (the diff position) while the claim's formula
`abs(trace[i] - trace[i-1]) > 0.5` selects `[1]`. -/
theorem claim_C2_counterexample :
    edgeIndices [0, 1] = [0] ∧ specEdgeIndices [0, 1] = [1] ∧
      edgeIndices [0, 1] ≠ specEdgeIndices [0, 1] := by decide

/-- C2 amended: the emitted sequence is the claim's sequence shifted
down by one — index `i` is emitted exactly when
`abs(trace[i+1] - trace[i]) > 0.5`. -/
theorem claim_C2 (t : List ℚ) :
    edgeIndices t = (specEdgeIndices t).map (fun i => i - 1) := by
  rw [specEdgeIndices_eq_map_succ, List.map_map]
  have h : ∀ a ∈ edgeIndices t, ((fun i => i - 1) ∘ (fun i => i + 1)) a = id a := by
    intro a _
    simp
  rw [List.map_congr_left h, List.map_id]

/-- C3 counterexample: for half period 2 (period `P = 4`) over `N = 16`
samples the detector returns 7 indices, not `floor(N/P) = 4` (±1). -/
theorem claim_C3_counterexample :
    (edgeIndices (squareTrace 2 16)).length = 7 ∧
      ¬ (7 ≤ 16 / (2 * 2) + 1) := by decide

/-- C3 amended: for a square wave of period `P = 2*h` over `N` samples
the detector returns `2 * floor(N/P)` (±1) transition indices (twice
the claimed count), consecutive indices exactly `P/2` apart. -/
theorem claim_C3 (h N : Nat) (hh : 0 < h) :
    (2 * (N / (2 * h)) ≤ (edgeIndices (squareTrace h N)).length + 1 ∧
      (edgeIndices (squareTrace h N)).length ≤ 2 * (N / (2 * h)) + 1) ∧
    List.Chain' (fun a b => b = a + h) (edgeIndices (squareTrace h N)) := by
  refine ⟨?_, edgeIndices_squareTrace_chain h N hh⟩
  rw [edgeIndices_squareTrace_length h N hh]
  exact square_count_bounds h N hh

/-- C3 witness: the amended theorem at half period 3, 20 samples. -/
theorem claim_C3_witness :
    (2 * (20 / (2 * 3)) ≤ (edgeIndices (squareTrace 3 20)).length + 1 ∧
      (edgeIndices (squareTrace 3 20)).length ≤ 2 * (20 / (2 * 3)) + 1) ∧
    List.Chain' (fun a b => b = a + 3) (edgeIndices (squareTrace 3 20)) :=
  claim_C3 3 20 (by decide)

/-- C4 counterexample: the scenario session (rate 1000, fileTimeSecs
10.0, 5 square-wave cycles on line 1) yields 9 iteration indices, not
10 — the level boundary at the very first extracted sample has no
predecessor and is not detectable. -/
theorem claim_C4_counterexample :
    (makeModel squareSession).map (fun a => a.iterationIndexNidq.length) ≠ .ok 10 := by
  rw [makeModel_squareSession]
  simp [Except.map, squareSession_iter_length]

/-- C4 amended: the scenario session's iteration-index sequence has
length exactly 9 (4 falling and 5 rising edges are interior to the
trace; the 10th boundary coincides with the trace start). -/
theorem claim_C4 :
    (makeModel squareSession).map (fun a => a.iterationIndexNidq.length) = .ok 9 := by
  rw [makeModel_squareSession]
  simp [Except.map, squareSession_iter_length]

/-- C5: (i) a non-numeric value under the recognized acquisition-rate
key makes `readMeta` fail with `MetadataParseError`, never any other
error and never a silently kept string; (ii) on success both recognized
values are the float parses of the sidecar text; (iii) every recorded
probe rate is the parsed `imSampRate` of that probe's own sidecar. -/
theorem claim_C5 (rateKey : String) (sc : Sidecar) (v : String)
    (hv : lookupKV sc rateKey = some v) :
    (parseRat v = none → readMeta rateKey sc = .error .metadataParse) ∧
    (∀ m, readMeta rateKey sc = .ok m → parseRat v = some m.rateValue ∧
      ∃ fv, lookupKV sc "fileTimeSecs" = some fv ∧ parseRat fv = some m.fileTimeSecs) ∧
    (∀ s art n q, makeModel s = .ok art → (n, q) ∈ art.imecSamplingRates →
      ∃ f fs m, s.probeFiles n = f :: fs ∧ readMeta imSampRateKey f.meta = .ok m ∧
        q = m.rateValue) := by
  refine ⟨?_, ?_, ?_⟩
  · intro hp
    cases hft : lookupKV sc "fileTimeSecs" <;> simp [readMeta, hv, hft, hp]
  · intro m hm
    simp only [readMeta, hv] at hm
    split at hm
    · simp at hm
    · rename_i fv hft
      split at hm
      · simp at hm
      · rename_i r hr
        split at hm
        · simp at hm
        · rename_i f hf2
          simp only [Except.ok.injEq] at hm
          subst hm
          exact ⟨hr, fv, hft, hf2⟩
  · intro s art n q hok hmem
    obtain ⟨pr, rates, _, hR, harts⟩ := makeModel_ok hok
    rw [harts] at hmem
    exact probeStage_ok_mem s.probeFiles s.probes rates hR n q hmem

/-- C5 witness: with `imSampRate = "abc"` (non-numeric) the probe
metadata parse fails with `MetadataParseError`. -/
theorem claim_C5_witness :
    readMeta imSampRateKey [(imSampRateKey, "abc"), ("fileTimeSecs", "1")] =
      .error .metadataParse :=
  (claim_C5 imSampRateKey [(imSampRateKey, "abc"), ("fileTimeSecs", "1")] "abc"
    (by decide)).1 (by decide)

/-- C6: in every produced artifact the iteration-index sequence is
strictly increasing (its entries are naturals, hence non-negative). -/
theorem claim_C6 (s : Session) (art : SyncArtifact) (h : makeModel s = .ok art) :
    List.Sorted (· < ·) art.iterationIndexNidq := by
  obtain ⟨pr, rates, hP, _, harts⟩ := makeModel_ok h
  obtain ⟨t, ht⟩ := primaryStage_ok_iter hP
  rw [harts]
  show List.Sorted (· < ·) pr.2
  rw [ht]
  exact edgeIndices_sorted t

/-- C6 witness: the theorem applied to the constant session. -/
theorem claim_C6_witness :
    List.Sorted (· < ·) (SyncArtifact.mk 2 [] []).iterationIndexNidq :=
  claim_C6 constSession ⟨2, [], []⟩ (by decide)

/-- C7: a trace with no consecutive-sample difference above 0.5 yields
the empty edge sequence, and a session with such a line-1 trace still
succeeds, its artifact carrying the empty iteration index — a valid
non-error outcome. -/
theorem claim_C7 (t : List ℚ) (hno : ∀ d ∈ npDiff t, |d| ≤ 1 / 2) :
    edgeIndices t = [] ∧ makeModel constSession = .ok ⟨2, [], []⟩ :=
  ⟨edgeIndices_eq_nil t hno, by decide⟩

/-- C7 witness: the theorem at the constant trace `[1, 1]`. -/
theorem claim_C7_witness :
    edgeIndices [1, 1] = [] ∧ makeModel constSession = .ok ⟨2, [], []⟩ :=
  claim_C7 [1, 1] (by decide)

/-- C8: probe streams undergo no digital extraction — the artifact
depends on probe files only through their sidecar metadata (sessions
equal but for probe binary contents produce identical artifacts), and
the value recorded per probe is exactly the parsed `imSampRate` of its
own sidecar. -/
theorem claim_C8 (s1 s2 : Session)
    (h1 : s1.nidqFiles = s2.nidqFiles) (h2 : s1.probes = s2.probes)
    (h3 : ∀ n, (s1.probeFiles n).map RawFile.meta = (s2.probeFiles n).map RawFile.meta) :
    makeModel s1 = makeModel s2 ∧
    (∀ art n q, makeModel s1 = .ok art → (n, q) ∈ art.imecSamplingRates →
      ∃ f fs m, s1.probeFiles n = f :: fs ∧ readMeta imSampRateKey f.meta = .ok m ∧
        q = m.rateValue) := by
  constructor
  · rw [makeModel, makeModel, h1, h2, probeStage_congr h3 s2.probes]
  · intro art n q hok hmem
    obtain ⟨pr, rates, _, hR, harts⟩ := makeModel_ok hok
    rw [harts] at hmem
    exact probeStage_ok_mem s1.probeFiles s1.probes rates hR n q hmem

/-- C8 witness: two sessions differing only in probe binary contents
produce the same artifact. -/
theorem claim_C8_witness :
    makeModel probeSession = makeModel probeSessionAltBin :=
  (claim_C8 probeSession probeSessionAltBin rfl rfl (fun _ => rfl)).1

/-- C9: the extracted range always starts at sample 0 (`t_start` is
fixed), ends at `int(rate * fileTimeSecs) - 1`, and for
`fileTimeSecs = 0` the degenerate range `[0, -1]` is handed to digital
extraction — which returns empty traces — rather than being rejected;
with no probes the session then succeeds with an empty iteration index. -/
theorem claim_C9 (s : Session) (f : RawFile) (m : ParsedMeta)
    (hE : headE s.nidqFiles = .ok f)
    (hM : readMeta niSampRateKey f.meta = .ok m)
    (hft : m.fileTimeSecs = 0) :
    (∀ rate : ℚ, firstSampleIndex rate = 0) ∧
    lastSampleIndex (SampRate m) m.fileTimeSecs = -1 ∧
    ExtractDigital f (firstSampleIndex (SampRate m))
      (lastSampleIndex (SampRate m) m.fileTimeSecs) dw dLineList =
      .ok (dLineList.map (fun _ => [])) ∧
    (s.probes = [] → makeModel s = .ok ⟨SampRate m, [], []⟩) := by
  have hfirst : ∀ rate : ℚ, firstSampleIndex rate = 0 := by
    intro rate
    simp [firstSampleIndex, tStart, pyInt]
  have hlast : lastSampleIndex (SampRate m) m.fileTimeSecs = -1 := by
    rw [hft]
    simp [lastSampleIndex, pyInt]
  refine ⟨hfirst, hlast, ?_, ?_⟩
  · rw [hfirst, hlast]
    exact ExtractDigital_degenerate f
  · intro hpr
    obtain ⟨fs, hfs⟩ := headE_ok hE
    have hok : ¬ (firstSampleIndex (SampRate m) < 0 ∨
        ((f.nSamples : Int) ≤ lastSampleIndex (SampRate m) m.fileTimeSecs)) := by
      rw [hfirst, hlast]
      intro hc
      rcases hc with hc | hc
      · omega
      · omega
    have hP := primaryStage_cons_ok f fs m hM hok
    rw [hfirst, hlast] at hP
    have hnil : sampleRange 0 (-1) = [] := by decide
    rw [hnil] at hP
    simp only [List.map_nil] at hP
    have hsn : primaryStage s.nidqFiles = .ok (SampRate m, edgeIndices []) := by
      rw [hfs]
      exact hP
    have hE0 : edgeIndices ([] : List ℚ) = [] := rfl
    simp only [makeModel, hsn, hpr, probeStage, hE0]

/-- C9 witness: the theorem at the concrete zero-duration session. -/
theorem claim_C9_witness :
    lastSampleIndex (SampRate ⟨zeroDurFile.meta, 100, 0⟩)
      (ParsedMeta.fileTimeSecs ⟨zeroDurFile.meta, 100, 0⟩) = -1 :=
  (claim_C9 zeroDurSession zeroDurFile ⟨zeroDurFile.meta, 100, 0⟩ rfl (by decide)
    rfl).2.1

/-- C10: the artifact depends only on line 1 of the extracted digital
word — replacing the primary recording's word function by any function
agreeing on bit 1 over the requested range leaves the result unchanged,
whatever lines 0 and 2-7 carry. -/
theorem claim_C10 (s : Session) (f : RawFile) (rest : List RawFile)
    (w' : Nat → Nat → Nat) (m : ParsedMeta)
    (hf : s.nidqFiles = f :: rest)
    (hM : readMeta niSampRateKey f.meta = .ok m)
    (hagree : ∀ i ∈ sampleRange (firstSampleIndex (SampRate m))
        (lastSampleIndex (SampRate m) m.fileTimeSecs),
        (w' dw i >>> 1) &&& 1 = (f.word dw i >>> 1) &&& 1) :
    makeModel { s with nidqFiles := { f with word := w' } :: rest } = makeModel s := by
  have hps := primaryStage_word_congr f rest w' m hM hagree
  rw [makeModel, makeModel]
  simp only [hf]
  rw [hps]

/-- C10 witness: flooding every other line with ones (word constantly 1,
whose bit 1 is 0, like the constant-0 word) leaves the artifact of the
constant session unchanged. -/
theorem claim_C10_witness :
    makeModel { constSession with
      nidqFiles := [{ constFile with word := fun _ _ => 1 }] } =
      makeModel constSession :=
  claim_C10 constSession constFile [] (fun _ _ => 1) ⟨constFile.meta, 2, 1⟩
    rfl (by decide) (by decide)


end EphysSync
